import Mathlib

/-!
Verification development for the research-pipeline ingestion tool
(`tooling/ingest.py`).

Python strings are modelled as `List Char` (sequences of Unicode scalar
values).  Pure helper functions of the source (`slugify`,
`generate_timestamped_filename`, `handle_collision`, `check_duplicate`,
`stabilize_file`) are translated into executable Lean definitions; the
stateful ingestion engine (`ingest_file`) is modelled as a function from an
explicit environment (file existence, hash, manifest read outcome, ...) and
the current manifest rows to the returned boolean, the new manifest rows and
an outcome tag recording which exit path was taken.
-/

namespace IngestSpec

/-- Models the character class matched by Python's regex `\s` / `str.isspace`
for a `str` pattern: the Unicode whitespace code points. -/
def pySpaceCodes : List Nat :=
  [9, 10, 11, 12, 13, 28, 29, 30, 31, 32, 133, 160, 5760,
   8192, 8193, 8194, 8195, 8196, 8197, 8198, 8199, 8200, 8201, 8202,
   8232, 8233, 8239, 8287, 12288]

/-- Whether a character is whitespace in Python's sense (`\s`, `str.strip`). -/
def isPySpace (c : Char) : Bool := c.toNat ∈ pySpaceCodes

/-- Models the character class `[A-Za-z0-9._-]` kept by `slugify`
(`re.sub(r'[^A-Za-z0-9._-]', '', text)`). -/
def isSafeChar (c : Char) : Bool :=
  (65 ≤ c.toNat && c.toNat ≤ 90) || (97 ≤ c.toNat && c.toNat ≤ 122) ||
  (48 ≤ c.toNat && c.toNat ≤ 57) || c.toNat == 46 || c.toNat == 95 || c.toNat == 45

/-- Models `re.sub(r'\s+', '-', text)`: every maximal run of whitespace is
replaced by a single hyphen (the hyphen is emitted at the end of the run,
which yields the same string as emitting it at the start). -/
def squashWs : List Char → List Char
  | [] => []
  | [c] => if isPySpace c then ['-'] else [c]
  | c :: d :: rest =>
    if isPySpace c then
      (if isPySpace d then squashWs (d :: rest) else '-' :: squashWs (d :: rest))
    else c :: squashWs (d :: rest)

/-- Models `re.sub(r'-+', '-', text)`: every maximal run of hyphens is
collapsed to a single hyphen. -/
def squashHyphens : List Char → List Char
  | [] => []
  | [c] => if c == '-' then ['-'] else [c]
  | c :: d :: rest =>
    if c == '-' then
      (if d == '-' then squashHyphens (d :: rest) else '-' :: squashHyphens (d :: rest))
    else c :: squashHyphens (d :: rest)

/-- Models `text.lstrip('-')`. -/
def lstripH : List Char → List Char
  | [] => []
  | c :: cs => if c == '-' then lstripH cs else c :: cs

/-- Models `text.rstrip('-')`. -/
def rstripH : List Char → List Char
  | [] => []
  | c :: cs =>
    match rstripH cs with
    | [] => if c == '-' then [] else [c]
    | r => c :: r

/-- Models `text.strip('-')` (strip hyphens from both ends). -/
def stripH (l : List Char) : List Char := rstripH (lstripH l)

/-- The stages of `slugify` that follow the Unicode-to-ASCII fold:
whitespace runs to hyphens, drop unsafe characters, collapse hyphen runs,
strip boundary hyphens, and truncate to `maxLen` (re-stripping trailing
hyphens after a truncation), exactly as in `slugify` (ingest.py:111-141). -/
def slugifyPost (l : List Char) (maxLen : Nat) : List Char :=
  let t2 := squashWs l
  let t3 := t2.filter isSafeChar
  let t4 := squashHyphens t3
  let t5 := stripH t4
  if maxLen < t5.length then rstripH (t5.take maxLen) else t5

/-- Models `slugify(text, max_len)`.  The first step of the source,
`unicodedata.normalize('NFKD', text).encode('ascii', 'ignore').decode('ascii')`,
is taken as a parameter `fold`; every theorem that needs it assumes only the
one property of that composite which is forced by the Unicode tables: it is
the identity on strings made of ASCII characters (ASCII characters have no
NFKD decomposition and survive the ascii codec). -/
def slugify (fold : List Char → List Char) (text : List Char) (maxLen : Nat) : List Char :=
  slugifyPost (fold text) maxLen

/-- A concrete instance of the `fold` parameter used by witnesses: it keeps
exactly the ASCII characters, hence is the identity on ASCII strings. -/
def asciiOnly (l : List Char) : List Char := l.filter (fun c => c.toNat < 128)

theorem asciiOnly_id (l : List Char) (h : ∀ c ∈ l, c.toNat < 128) : asciiOnly l = l := by
  simp only [asciiOnly]
  exact List.filter_eq_self.mpr (fun c hc => decide_eq_true (h c hc))

/-- Absence of two adjacent hyphens, the shape invariant that the
hyphen-collapsing stage of `slugify` establishes. -/
def noDH : List Char → Bool
  | [] => true
  | [_] => true
  | a :: b :: rest => !(a == '-' && b == '-') && noDH (b :: rest)

theorem noDH_cons_iff (a : Char) (l : List Char) :
    noDH (a :: l) = true ↔
      noDH l = true ∧ ∀ b, l.head? = some b → ¬(a = '-' ∧ b = '-') := by
  cases l with
  | nil => simp [noDH]
  | cons b rest =>
    simp only [noDH, Bool.and_eq_true, Bool.not_eq_true', Bool.and_eq_false_iff,
      beq_eq_false_iff_ne, ne_eq, List.head?_cons, Option.some_inj]
    constructor
    · rintro ⟨hab, hrest⟩
      exact ⟨hrest, fun c hc ⟨ha, hcq⟩ => by
        rcases hab with h | h <;> [exact h ha; exact h (hc ▸ hcq)]⟩
    · rintro ⟨hrest, hpair⟩
      refine ⟨?_, hrest⟩
      by_cases ha : a = '-'
      · right; intro hb; exact (hpair b rfl ⟨ha, hb⟩).elim
      · left; exact ha

theorem safe_lt_128 (c : Char) (h : isSafeChar c = true) : c.toNat < 128 := by
  simp only [isSafeChar, Bool.or_eq_true, Bool.and_eq_true, decide_eq_true_eq,
    beq_iff_eq] at h
  omega

theorem safe_not_space (c : Char) (h : isSafeChar c = true) : isPySpace c = false := by
  simp only [isSafeChar, Bool.or_eq_true, Bool.and_eq_true, decide_eq_true_eq,
    beq_iff_eq] at h
  simp only [isPySpace, pySpaceCodes, List.mem_cons, List.not_mem_nil, or_false,
    decide_eq_false_iff_not]
  omega

theorem squashWs_id (l : List Char) (h : ∀ c ∈ l, isPySpace c = false) :
    squashWs l = l := by
  induction l with
  | nil => rfl
  | cons c cs ih =>
    have hc : isPySpace c = false := h c (List.mem_cons_self _ _)
    have hcs : ∀ d ∈ cs, isPySpace d = false :=
      fun d hd => h d (List.mem_cons_of_mem _ hd)
    cases cs with
    | nil => simp [squashWs, hc]
    | cons d rest => simp only [squashWs, hc, Bool.false_eq_true, if_false, ih hcs]

theorem mem_squashHyphens (c : Char) (l : List Char) (h : c ∈ squashHyphens l) :
    c = '-' ∨ c ∈ l := by
  induction l with
  | nil => simp [squashHyphens] at h
  | cons a cs ih =>
    cases cs with
    | nil =>
      by_cases ha : a = '-' <;> simp [squashHyphens, ha] at h <;> simp [h, ha]
    | cons d ds =>
      by_cases ha : a = '-'
      · by_cases hd : d = '-'
        · rw [show squashHyphens (a :: d :: ds) = squashHyphens (d :: ds) by
            simp [squashHyphens, ha, hd]] at h
          rcases ih h with h' | h'
          · exact Or.inl h'
          · exact Or.inr (List.mem_cons_of_mem _ h')
        · rw [show squashHyphens (a :: d :: ds) = '-' :: squashHyphens (d :: ds) by
            simp [squashHyphens, ha, hd]] at h
          rcases List.mem_cons.mp h with h' | h'
          · exact Or.inl h'
          · rcases ih h' with h'' | h''
            · exact Or.inl h''
            · exact Or.inr (List.mem_cons_of_mem _ h'')
      · rw [show squashHyphens (a :: d :: ds) = a :: squashHyphens (d :: ds) by
          simp [squashHyphens, ha]] at h
        rcases List.mem_cons.mp h with h' | h'
        · exact Or.inr (h' ▸ List.mem_cons_self _ _)
        · rcases ih h' with h'' | h''
          · exact Or.inl h''
          · exact Or.inr (List.mem_cons_of_mem _ h'')

theorem head?_squashHyphens_ne (b : Char) (l : List Char) (hb : b ≠ '-') :
    (squashHyphens (b :: l)).head? = some b := by
  cases l with
  | nil => simp [squashHyphens, hb]
  | cons d rest => simp [squashHyphens, hb]

theorem noDH_squashHyphens (l : List Char) : noDH (squashHyphens l) = true := by
  induction l with
  | nil => rfl
  | cons a cs ih =>
    cases cs with
    | nil => by_cases ha : a = '-' <;> simp [squashHyphens, ha, noDH]
    | cons d ds =>
      by_cases ha : a = '-'
      · by_cases hd : d = '-'
        · rw [show squashHyphens (a :: d :: ds) = squashHyphens (d :: ds) by
            simp [squashHyphens, ha, hd]]
          exact ih
        · rw [show squashHyphens (a :: d :: ds) = '-' :: squashHyphens (d :: ds) by
            simp [squashHyphens, ha, hd]]
          rw [noDH_cons_iff]
          refine ⟨ih, fun b hb => ?_⟩
          rw [head?_squashHyphens_ne d ds hd, Option.some_inj] at hb
          rintro ⟨-, hbd⟩
          exact hd (hb ▸ hbd)
      · rw [show squashHyphens (a :: d :: ds) = a :: squashHyphens (d :: ds) by
          simp [squashHyphens, ha]]
        rw [noDH_cons_iff]
        exact ⟨ih, fun b _ => fun hq => ha hq.1⟩

theorem squashHyphens_id (l : List Char) (h : noDH l = true) : squashHyphens l = l := by
  induction l with
  | nil => rfl
  | cons a cs ih =>
    rcases (noDH_cons_iff a cs).mp h with ⟨hcs, hpair⟩
    cases cs with
    | nil => by_cases ha : a = '-' <;> simp [squashHyphens, ha]
    | cons d ds =>
      by_cases ha : a = '-'
      · have hd : d ≠ '-' := fun hdq => hpair d rfl ⟨ha, hdq⟩
        rw [show squashHyphens (a :: d :: ds) = '-' :: squashHyphens (d :: ds) by
          simp [squashHyphens, ha, hd]]
        rw [ih hcs, ha]
      · rw [show squashHyphens (a :: d :: ds) = a :: squashHyphens (d :: ds) by
          simp [squashHyphens, ha]]
        rw [ih hcs]

theorem lstripH_id (l : List Char) (h : l.head? ≠ some '-') : lstripH l = l := by
  cases l with
  | nil => rfl
  | cons c cs =>
    have : c ≠ '-' := fun hc => h (by simp [hc])
    simp [lstripH, this]

theorem head?_lstripH (l : List Char) : (lstripH l).head? ≠ some '-' := by
  induction l with
  | nil => simp [lstripH]
  | cons c cs ih =>
    by_cases hc : c = '-'
    · simpa [lstripH, hc] using ih
    · simp [lstripH, hc]

theorem mem_lstripH (c : Char) (l : List Char) (h : c ∈ lstripH l) : c ∈ l := by
  induction l with
  | nil => simp [lstripH] at h
  | cons a cs ih =>
    by_cases ha : a = '-'
    · rw [show lstripH (a :: cs) = lstripH cs by simp [lstripH, ha]] at h
      exact List.mem_cons_of_mem _ (ih h)
    · rwa [show lstripH (a :: cs) = a :: cs by simp [lstripH, ha]] at h

theorem noDH_tail (a : Char) (l : List Char) (h : noDH (a :: l) = true) :
    noDH l = true := ((noDH_cons_iff a l).mp h).1

theorem noDH_lstripH (l : List Char) (h : noDH l = true) : noDH (lstripH l) = true := by
  induction l with
  | nil => simpa [lstripH] using h
  | cons a cs ih =>
    by_cases ha : a = '-'
    · rw [show lstripH (a :: cs) = lstripH cs by simp [lstripH, ha]]
      exact ih (noDH_tail a cs h)
    · rwa [show lstripH (a :: cs) = a :: cs by simp [lstripH, ha]]

theorem rstripH_cases (l : List Char) :
    rstripH l = [] ∨ (rstripH l).head? = l.head? := by
  cases l with
  | nil => exact Or.inl rfl
  | cons c cs =>
    cases h : rstripH cs with
    | nil =>
      by_cases hc : c = '-'
      · exact Or.inl (by simp [rstripH, h, hc])
      · exact Or.inr (by simp [rstripH, h, hc])
    | cons x xs => exact Or.inr (by simp [rstripH, h])

theorem getLast?_rstripH (l : List Char) : (rstripH l).getLast? ≠ some '-' := by
  induction l with
  | nil => simp [rstripH]
  | cons c cs ih =>
    cases h : rstripH cs with
    | nil =>
      by_cases hc : c = '-'
      · simp [rstripH, h, hc]
      · simp [rstripH, h, hc]
    | cons x xs =>
      rw [show rstripH (c :: cs) = c :: x :: xs by simp [rstripH, h]]
      rw [List.getLast?_cons_cons]
      rw [h] at ih
      exact ih

theorem rstripH_cons_ne_nil (c : Char) (cs : List Char) (h : rstripH cs ≠ []) :
    rstripH (c :: cs) = c :: rstripH cs := by
  cases hr : rstripH cs with
  | nil => exact absurd hr h
  | cons x xs => simp [rstripH, hr]

theorem rstripH_id (l : List Char) (h : l.getLast? ≠ some '-') : rstripH l = l := by
  induction l with
  | nil => rfl
  | cons c cs ih =>
    cases cs with
    | nil =>
      have hc : c ≠ '-' := fun hc => h (by simp [hc])
      simp [rstripH, hc]
    | cons d ds =>
      rw [List.getLast?_cons_cons] at h
      have hd : rstripH (d :: ds) = d :: ds := ih h
      rw [rstripH_cons_ne_nil c (d :: ds) (by simp [hd]), hd]

theorem mem_rstripH (c : Char) (l : List Char) (h : c ∈ rstripH l) : c ∈ l := by
  induction l with
  | nil => simp [rstripH] at h
  | cons a cs ih =>
    cases hr : rstripH cs with
    | nil =>
      by_cases ha : a = '-'
      · simp [rstripH, hr, ha] at h
      · rw [show rstripH (a :: cs) = [a] by simp [rstripH, hr, ha]] at h
        simp only [List.mem_singleton] at h
        exact h ▸ List.mem_cons_self _ _
    | cons x xs =>
      rw [show rstripH (a :: cs) = a :: x :: xs by simp [rstripH, hr]] at h
      rcases List.mem_cons.mp h with h' | h'
      · exact h' ▸ List.mem_cons_self _ _
      · exact List.mem_cons_of_mem _ (ih (hr ▸ h'))

theorem length_rstripH_le (l : List Char) : (rstripH l).length ≤ l.length := by
  induction l with
  | nil => simp [rstripH]
  | cons a cs ih =>
    cases hr : rstripH cs with
    | nil =>
      by_cases ha : a = '-' <;> simp [rstripH, hr, ha]
    | cons x xs =>
      rw [show rstripH (a :: cs) = a :: x :: xs by simp [rstripH, hr]]
      rw [hr] at ih
      simpa using ih

theorem noDH_rstripH (l : List Char) (h : noDH l = true) : noDH (rstripH l) = true := by
  induction l with
  | nil => simpa [rstripH] using h
  | cons a cs ih =>
    cases hr : rstripH cs with
    | nil =>
      by_cases ha : a = '-'
      · simp [rstripH, hr, ha, noDH]
      · simp [rstripH, hr, ha, noDH]
    | cons x xs =>
      rw [show rstripH (a :: cs) = a :: x :: xs by simp [rstripH, hr]]
      rw [noDH_cons_iff]
      have hcs : noDH cs = true := noDH_tail a cs h
      refine ⟨hr ▸ ih hcs, fun b hb => ?_⟩
      simp only [List.head?_cons, Option.some_inj] at hb
      rcases rstripH_cases cs with hnil | hhead
      · rw [hr] at hnil; exact absurd hnil (by simp)
      · rw [hr] at hhead
        simp only [List.head?_cons] at hhead
        cases cs with
        | nil => simp [rstripH] at hr
        | cons y ys =>
          simp only [List.head?_cons, Option.some_inj] at hhead
          rcases (noDH_cons_iff a (y :: ys)).mp h with ⟨-, hpair⟩
          rintro ⟨ha, hbh⟩
          exact hpair y rfl ⟨ha, by rw [← hhead, hb]; exact hbh⟩

theorem head?_take_eq (l : List Char) (n : Nat) (b : Char)
    (h : (l.take n).head? = some b) : l.head? = some b := by
  cases l with
  | nil => simp at h
  | cons c cs =>
    cases n with
    | zero => simp at h
    | succ m => simpa using h

theorem noDH_take (l : List Char) (n : Nat) (h : noDH l = true) :
    noDH (l.take n) = true := by
  induction l generalizing n with
  | nil => simpa [List.take_nil] using h
  | cons a cs ih =>
    cases n with
    | zero => rfl
    | succ m =>
      rw [List.take_succ_cons, noDH_cons_iff]
      rcases (noDH_cons_iff a cs).mp h with ⟨hcs, hpair⟩
      refine ⟨ih m hcs, fun b hb => hpair b (head?_take_eq cs m b hb)⟩

theorem safe_slugifyPost (l : List Char) (n : Nat) :
    ∀ c ∈ slugifyPost l n, isSafeChar c = true := by
  intro c hc
  have hsafe4 : ∀ d ∈ squashHyphens ((squashWs l).filter isSafeChar),
      isSafeChar d = true := by
    intro d hd
    rcases mem_squashHyphens d _ hd with h' | h'
    · subst h'; decide
    · exact List.of_mem_filter h'
  have hsafe5 : ∀ d ∈ stripH (squashHyphens ((squashWs l).filter isSafeChar)),
      isSafeChar d = true := by
    intro d hd
    simp only [stripH] at hd
    exact hsafe4 d (mem_lstripH d _ (mem_rstripH d _ hd))
  simp only [slugifyPost] at hc
  split at hc
  · exact hsafe5 c (List.take_subset n _ (mem_rstripH c _ hc))
  · exact hsafe5 c hc

theorem noDH_slugifyPost (l : List Char) (n : Nat) :
    noDH (slugifyPost l n) = true := by
  have h5 : noDH (stripH (squashHyphens ((squashWs l).filter isSafeChar))) = true := by
    simp only [stripH]
    exact noDH_rstripH _ (noDH_lstripH _ (noDH_squashHyphens _))
  simp only [slugifyPost]
  split
  · exact noDH_rstripH _ (noDH_take _ n h5)
  · exact h5

theorem head?_slugifyPost (l : List Char) (n : Nat) :
    (slugifyPost l n).head? ≠ some '-' := by
  have h5 : (stripH (squashHyphens ((squashWs l).filter isSafeChar))).head? ≠
      some '-' := by
    simp only [stripH]
    rcases rstripH_cases (lstripH (squashHyphens ((squashWs l).filter isSafeChar)))
      with hnil | hh
    · simp [hnil]
    · rw [hh]; exact head?_lstripH _
  simp only [slugifyPost]
  split
  · rcases rstripH_cases ((stripH (squashHyphens ((squashWs l).filter isSafeChar))).take n)
      with hnil | hh
    · simp [hnil]
    · rw [hh]
      intro hcon
      exact h5 (head?_take_eq _ n _ hcon)
  · exact h5

theorem getLast?_slugifyPost (l : List Char) (n : Nat) :
    (slugifyPost l n).getLast? ≠ some '-' := by
  simp only [slugifyPost]
  split
  · exact getLast?_rstripH _
  · simp only [stripH]
    exact getLast?_rstripH _

theorem length_slugifyPost (l : List Char) (n : Nat) :
    (slugifyPost l n).length ≤ n := by
  simp only [slugifyPost]
  split
  · calc (rstripH ((stripH (squashHyphens ((squashWs l).filter isSafeChar))).take n)).length
        ≤ ((stripH (squashHyphens ((squashWs l).filter isSafeChar))).take n).length :=
          length_rstripH_le _
      _ ≤ n := by rw [List.length_take]; omega
  · omega

theorem slugifyPost_id (s : List Char) (n : Nat)
    (hsafe : ∀ c ∈ s, isSafeChar c = true)
    (hnd : noDH s = true)
    (hhead : s.head? ≠ some '-')
    (hlast : s.getLast? ≠ some '-')
    (hlen : s.length ≤ n) :
    slugifyPost s n = s := by
  have h2 : squashWs s = s := squashWs_id s (fun c hc => safe_not_space c (hsafe c hc))
  have h3 : s.filter isSafeChar = s := List.filter_eq_self.mpr hsafe
  have h5 : stripH s = s := by
    rw [stripH, lstripH_id s hhead, rstripH_id s hlast]
  simp only [slugifyPost, h2, h3, squashHyphens_id s hnd, h5]
  rw [if_neg (by omega)]

/-- Claim C7: `slugify` is idempotent, for every input string and every
maximum length.  The Unicode fold (NFKD normalisation followed by the
`ascii`/`ignore` codec) is abstracted by `fold`; the hypothesis states the
only fact about it that the proof uses, namely that it leaves pure-ASCII
strings unchanged, which is forced by the Unicode tables (ASCII characters
have no decomposition and survive the `ascii` codec unchanged). -/
theorem slugify_idempotent (fold : List Char → List Char)
    (hfold : ∀ l, (∀ c ∈ l, c.toNat < 128) → fold l = l)
    (text : List Char) (maxLen : Nat) :
    slugify fold (slugify fold text maxLen) maxLen = slugify fold text maxLen := by
  have hsafe := safe_slugifyPost (fold text) maxLen
  have hfs : fold (slugifyPost (fold text) maxLen) = slugifyPost (fold text) maxLen :=
    hfold _ (fun c hc => safe_lt_128 c (hsafe c hc))
  simp only [slugify]
  rw [hfs]
  exact slugifyPost_id _ _ hsafe (noDH_slugifyPost _ _) (head?_slugifyPost _ _)
    (getLast?_slugifyPost _ _) (length_slugifyPost _ _)

/-- Witness for C7 at a concrete fold (the ASCII-filtering instance of the
Unicode fold) and a concrete input. -/
theorem slugify_idempotent_witness :
    slugify asciiOnly (slugify asciiOnly ("  My  Data!!.csv ").toList 60) 60 =
      slugify asciiOnly ("  My  Data!!.csv ").toList 60 :=
  slugify_idempotent asciiOnly (fun l h => asciiOnly_id l h)
    (("  My  Data!!.csv ").toList) 60

/-- Index of the last occurrence of `c` in `l`, or `-1` when absent; models
Python's `str.rfind` as used by `os.path.splitext`. -/
def rfindIdx (l : List Char) (c : Char) : Int :=
  match l.reverse.findIdx? (fun d => d == c) with
  | none => -1
  | some k => (l.length : Int) - 1 - (k : Int)

/-- Models `os.path.splitext` (posixpath `_splitext` with `sep='/'` and
`extsep='.'`): split at the last dot when it lies after the last slash and
the basename has a non-dot character before it; otherwise the extension is
empty. -/
def splitext (p : List Char) : List Char × List Char :=
  let sepIndex := rfindIdx p '/'
  let dotIndex := rfindIdx p '.'
  if sepIndex < dotIndex then
    let s := (sepIndex + 1).toNat
    let d := dotIndex.toNat
    if ((p.drop s).take (d - s)).any (fun c => c != '.') then (p.take d, p.drop d)
    else (p, [])
  else (p, [])

/-- Models `str.lower()` on extension strings.  Only the ASCII range is
mapped (the extensions appearing in the claims are ASCII; non-ASCII case
mappings of the Unicode tables are outside the scope of this development). -/
def pyLowerChar (c : Char) : Char :=
  if 65 ≤ c.toNat ∧ c.toNat ≤ 90 then Char.ofNat (c.toNat + 32) else c

/-- The `naming` section of the configuration as read by
`generate_timestamped_filename` (`slug_maxlen` and `lower_ext`; the
`timestamp_format` entry only shapes the timestamp string, which this model
passes in explicitly). -/
structure NamingConfig where
  slugMaxlen : Nat
  lowerExt : Bool
deriving DecidableEq

/-- The defaults of `generate_timestamped_filename`:
`slug_maxlen = 60`, `lower_ext = True`. -/
def defaultNaming : NamingConfig := { slugMaxlen := 60, lowerExt := true }

/-- Models `generate_timestamped_filename(original_name, config)`
(ingest.py:144-172).  `ts` is the string `datetime.now().strftime(...)`
produced at the call; the function builds `f"{slug}_{timestamp}{ext}"`,
lowercasing a non-empty extension when `lower_ext` is set and substituting
the literal `"file"` for an empty slug. -/
def genTimestampedFilename (fold : List Char → List Char) (originalName : List Char)
    (naming : NamingConfig) (ts : List Char) : List Char :=
  let base := (splitext originalName).1
  let ext0 := (splitext originalName).2
  let ext := if naming.lowerExt && !ext0.isEmpty then ext0.map pyLowerChar else ext0
  let slugRaw := slugify fold base naming.slugMaxlen
  let slug := if slugRaw.isEmpty then ("file").toList else slugRaw
  slug ++ '_' :: (ts ++ ext)

/-- Decimal digit characters, the class `\d` for ASCII digits. -/
def isDigitCh (c : Char) : Bool := 48 ≤ c.toNat && c.toNat ≤ 57

/-- Full match of the timestamp shape `\d{4}-\d{2}-\d{2}T\d{6}` (what
`strftime('%Y-%m-%dT%H%M%S')` produces). -/
def isTsShape (l : List Char) : Bool :=
  decide (l.length = 17) && (l.take 4).all isDigitCh &&
  decide ((l.drop 4).head? = some '-') && ((l.drop 5).take 2).all isDigitCh &&
  decide ((l.drop 7).head? = some '-') && ((l.drop 8).take 2).all isDigitCh &&
  decide ((l.drop 10).head? = some 'T') && ((l.drop 11).take 6).all isDigitCh

/-- Full match of the pattern `{pre}\d{4}-\d{2}-\d{2}T\d{6}{suf}` for literal
`pre` and `suf`. -/
def matchesTsPat (pre suf l : List Char) : Bool :=
  decide (l.length = pre.length + 17 + suf.length) &&
  decide (l.take pre.length = pre) &&
  isTsShape ((l.drop pre.length).take 17) &&
  decide (l.drop (pre.length + 17) = suf)

/-- Substring search (the semantics of `re.search`) for the fixed-length
pattern `{pre}\d{4}-\d{2}-\d{2}T\d{6}{suf}`: some window of the text
matches it. -/
def searchTsPat (pre suf l : List Char) : Bool :=
  (List.range (l.length + 1)).any
    (fun i => matchesTsPat pre suf ((l.drop i).take (pre.length + 17 + suf.length)))

theorem isTsShape_length (l : List Char) (h : isTsShape l = true) : l.length = 17 := by
  simp only [isTsShape, Bool.and_eq_true, decide_eq_true_eq] at h
  exact h.1.1.1.1.1.1.1

theorem matchesTsPat_append (pre suf ts : List Char) (hts : isTsShape ts = true) :
    matchesTsPat pre suf (pre ++ (ts ++ suf)) = true := by
  have h17 : ts.length = 17 := isTsShape_length ts hts
  have hdrop : (pre ++ (ts ++ suf)).drop pre.length = ts ++ suf := List.drop_left pre _
  have htake17 : (ts ++ suf).take 17 = ts := by
    rw [← h17]; exact List.take_left ts suf
  simp only [matchesTsPat, Bool.and_eq_true, decide_eq_true_eq]
  refine ⟨⟨⟨?_, ?_⟩, ?_⟩, ?_⟩
  · simp [List.length_append, h17]; omega
  · exact List.take_left pre _
  · rw [hdrop, htake17]; exact hts
  · rw [← List.drop_drop, hdrop, ← h17, List.drop_left ts suf]

/-- Claim C5 (counterexample): an input whose slug pipeline yields the empty
string makes `slugify` itself return the empty string, not the literal
`"file"`; the fallback to `"file"` lives in `generate_timestamped_filename`. -/
theorem slugify_empty_counterexample :
    slugify asciiOnly (("()").toList) 60 = [] ∧
    slugify asciiOnly (("()").toList) 60 ≠ ("file").toList := by
  constructor
  · decide
  · decide

/-- Claim C5 (amended): when the slug of the basename is empty,
`generate_timestamped_filename` substitutes the literal `"file"`, so the
generated destination name starts with `file_`. -/
theorem slugify_empty_gives_file_fallback (fold : List Char → List Char)
    (naming : NamingConfig) (origName ts : List Char)
    (h : slugify fold (splitext origName).1 naming.slugMaxlen = []) :
    genTimestampedFilename fold origName naming ts =
      ("file").toList ++ '_' :: (ts ++
        (if naming.lowerExt && !(splitext origName).2.isEmpty
          then (splitext origName).2.map pyLowerChar else (splitext origName).2)) := by
  simp only [genTimestampedFilename, h, List.isEmpty_nil, if_true]

/-- Witness for the amended C5 at a concrete input. -/
theorem slugify_empty_gives_file_fallback_witness :
    genTimestampedFilename asciiOnly (("()").toList) defaultNaming
        (("2024-01-02T030405").toList) =
      ("file").toList ++ '_' :: ((("2024-01-02T030405").toList) ++
        (if defaultNaming.lowerExt && !(splitext (("()").toList)).2.isEmpty
          then (splitext (("()").toList)).2.map pyLowerChar
          else (splitext (("()").toList)).2)) :=
  slugify_empty_gives_file_fallback asciiOnly defaultNaming (("()").toList)
    (("2024-01-02T030405").toList) (by decide)

/-- Claim C4 (counterexample): ingesting `My Report (Final).PDF` under the
default naming configuration produces `My-Report-Final_<ts>.pdf` — `slugify`
never lowercases — so the name does not match the case-sensitive pattern
`my-report-final_\d{4}-\d{2}-\d{2}T\d{6}\.pdf` (not even as a substring
search). -/
theorem default_name_case_counterexample :
    genTimestampedFilename asciiOnly (("My Report (Final).PDF").toList) defaultNaming
        (("2024-01-02T030405").toList) =
      ("My-Report-Final_2024-01-02T030405.pdf").toList ∧
    searchTsPat (("my-report-final_").toList) ((".pdf").toList)
      (("My-Report-Final_2024-01-02T030405.pdf").toList) = false := by
  constructor
  · decide
  · decide

/-- Claim C4 (amended): under the default naming configuration the
destination name for `My Report (Final).PDF` is
`My-Report-Final_<timestamp>.pdf`, matching the case-preserving pattern
`My-Report-Final_\d{4}-\d{2}-\d{2}T\d{6}\.pdf` (only the extension is
lowercased; the slug keeps the original case). -/
theorem default_name_example_amended (fold : List Char → List Char)
    (hfold : ∀ l, (∀ c ∈ l, c.toNat < 128) → fold l = l)
    (ts : List Char) (hts : isTsShape ts = true) :
    genTimestampedFilename fold (("My Report (Final).PDF").toList) defaultNaming ts =
      ("My-Report-Final_").toList ++ (ts ++ (".pdf").toList) ∧
    matchesTsPat (("My-Report-Final_").toList) ((".pdf").toList)
      (genTimestampedFilename fold (("My Report (Final).PDF").toList)
        defaultNaming ts) = true := by
  have hbase : fold (("My Report (Final)").toList) = ("My Report (Final)").toList :=
    hfold _ (by decide)
  have hslug : slugify fold (("My Report (Final)").toList) 60 =
      ("My-Report-Final").toList := by
    rw [slugify, hbase]; decide
  have hdef : genTimestampedFilename fold (("My Report (Final).PDF").toList)
      defaultNaming ts =
      (if (slugify fold (("My Report (Final)").toList) 60).isEmpty
        then ("file").toList
        else slugify fold (("My Report (Final)").toList) 60) ++
        '_' :: (ts ++ ((".pdf").toList)) := rfl
  have hname : genTimestampedFilename fold (("My Report (Final).PDF").toList)
      defaultNaming ts = ("My-Report-Final_").toList ++ (ts ++ ((".pdf").toList)) := by
    rw [hdef, hslug]; exact rfl
  exact ⟨hname, by rw [hname]; exact matchesTsPat_append _ _ ts hts⟩

/-- Witness for the amended C4 at a concrete timestamp. -/
theorem default_name_example_amended_witness :
    genTimestampedFilename asciiOnly (("My Report (Final).PDF").toList) defaultNaming
        (("2024-01-02T030405").toList) =
      ("My-Report-Final_").toList ++ ((("2024-01-02T030405").toList) ++ ((".pdf").toList)) ∧
    matchesTsPat (("My-Report-Final_").toList) ((".pdf").toList)
      (genTimestampedFilename asciiOnly (("My Report (Final).PDF").toList)
        defaultNaming (("2024-01-02T030405").toList)) = true :=
  default_name_example_amended asciiOnly (fun l h => asciiOnly_id l h)
    (("2024-01-02T030405").toList) (by decide)

/-- The decimal digit character for `d` (defined for `d < 10`; the default
arm is never reached on digit arguments). -/
def decDigit : Nat → Char
  | 0 => '0'
  | 1 => '1'
  | 2 => '2'
  | 3 => '3'
  | 4 => '4'
  | 5 => '5'
  | 6 => '6'
  | 7 => '7'
  | 8 => '8'
  | 9 => '9'
  | _ => '0'

/-- Fuel-bounded decimal rendering; `fuel > n` always suffices. -/
def natToDecAux : Nat → Nat → List Char
  | 0, _ => []
  | fuel + 1, n =>
    if n < 10 then [decDigit n] else natToDecAux fuel (n / 10) ++ [decDigit (n % 10)]

/-- Models Python's `str(n)` for a natural number, as interpolated into the
numeric fallback suffixes of `handle_collision`. -/
def natToDec (n : Nat) : List Char := natToDecAux (n + 1) n

/-- Value of a digit string, a left inverse of `natToDec` used to show that
distinct counters render to distinct suffixes. -/
def decVal (l : List Char) : Nat := l.foldl (fun acc c => acc * 10 + (c.toNat - 48)) 0

theorem decDigit_toNat (n : Nat) (h : n < 10) : (decDigit n).toNat = 48 + n := by
  interval_cases n <;> rfl

theorem decVal_append_digit (l : List Char) (c : Char) :
    decVal (l ++ [c]) = (decVal l) * 10 + (c.toNat - 48) := by
  simp [decVal, List.foldl_append]

theorem decVal_natToDecAux (fuel : Nat) :
    ∀ n, n < fuel → decVal (natToDecAux fuel n) = n := by
  induction fuel with
  | zero => intro n hn; omega
  | succ f ih =>
    intro n hn
    by_cases h10 : n < 10
    · simp only [natToDecAux, h10, if_true]
      simp [decVal, decDigit_toNat n h10]
    · simp only [natToDecAux, h10, if_false]
      rw [decVal_append_digit, ih (n / 10) (by omega), decDigit_toNat (n % 10) (by omega)]
      omega

theorem decVal_natToDec (n : Nat) : decVal (natToDec n) = n :=
  decVal_natToDecAux (n + 1) n (Nat.lt_succ_self n)

theorem natToDec_inj (m n : Nat) (h : natToDec m = natToDec n) : m = n := by
  have := decVal_natToDec m
  rw [h, decVal_natToDec n] at this
  omega

theorem natToDecAux_digits (fuel : Nat) :
    ∀ n c, c ∈ natToDecAux fuel n → 48 ≤ c.toNat ∧ c.toNat ≤ 57 := by
  induction fuel with
  | zero => intro n c hc; simp [natToDecAux] at hc
  | succ f ih =>
    intro n c hc
    by_cases h10 : n < 10
    · simp only [natToDecAux, h10, if_true, List.mem_singleton] at hc
      subst hc
      rw [decDigit_toNat n h10]
      omega
    · simp only [natToDecAux, h10, if_false, List.mem_append, List.mem_singleton] at hc
      rcases hc with hc | hc
      · exact ih (n / 10) c hc
      · subst hc
        rw [decDigit_toNat (n % 10) (by omega)]
        omega

/-- The lowercase alphabet `chr(ord('a'))` … `chr(ord('z'))` tried by
`handle_collision` before it falls back to numbers. -/
def alphaChars : List Char := ("abcdefghijklmnopqrstuvwxyz").toList

/-- The `i`-th suffix tried by `handle_collision` (0-based): `a` … `z` for
`i < 26`, then the numeric suffixes `1`, `2`, … . -/
def collSuffix (i : Nat) : List Char :=
  if i < 26 then [alphaChars.getD i 'a'] else natToDec (i - 25)

/-- The `i`-th candidate path `f"{base}-{suffix}{ext}"` tried by
`handle_collision` for a given target. -/
def collCand (target : List Char) (i : Nat) : List Char :=
  (splitext target).1 ++ '-' :: (collSuffix i ++ (splitext target).2)

/-- The search loop of `handle_collision`: return the first candidate, from
index `i` on, that does not exist.  The source runs an unbounded `while`
loop; because the candidates are pairwise distinct and the set of existing
paths is finite, `ex.length + 1` probes always reach a free candidate
(`findFreeSuffix_not_mem` below), so `handleCollision` invokes the loop with
that fuel and the fuel-exhausted arm is never reached. -/
def findFreeSuffix (ex : List (List Char)) (cand : Nat → List Char) :
    Nat → Nat → List Char
  | 0, i => cand i
  | fuel + 1, i => if cand i ∈ ex then findFreeSuffix ex cand fuel (i + 1) else cand i

/-- Models `handle_collision(target_path)` (ingest.py:175-197), with the
filesystem's set of existing paths made explicit as the list `ex`. -/
def handleCollision (ex : List (List Char)) (target : List Char) : List Char :=
  if target ∈ ex then findFreeSuffix ex (collCand target) (ex.length + 1) 0 else target

theorem alpha_getD_inj :
    ∀ i < 26, ∀ j < 26, alphaChars.getD i 'a' = alphaChars.getD j 'a' → i = j := by
  decide

theorem alpha_getD_range :
    ∀ i < 26, 97 ≤ (alphaChars.getD i 'a').toNat ∧ (alphaChars.getD i 'a').toNat ≤ 122 := by
  decide

theorem collSuffix_inj (i j : Nat) (h : collSuffix i = collSuffix j) : i = j := by
  by_cases hi : i < 26 <;> by_cases hj : j < 26
  · simp only [collSuffix, hi, hj, if_true, List.cons.injEq, and_true] at h
    exact alpha_getD_inj i hi j hj h
  · simp only [collSuffix, hi, hj, if_true, if_false] at h
    have hmem : alphaChars.getD i 'a' ∈ natToDec (j - 25) := by
      rw [← h]; exact List.mem_singleton_self _
    have hd := natToDecAux_digits (j - 25 + 1) (j - 25) _ hmem
    have hr := alpha_getD_range i hi
    omega
  · simp only [collSuffix, hi, hj, if_true, if_false] at h
    have hmem : alphaChars.getD j 'a' ∈ natToDec (i - 25) := by
      rw [h]; exact List.mem_singleton_self _
    have hd := natToDecAux_digits (i - 25 + 1) (i - 25) _ hmem
    have hr := alpha_getD_range j hj
    omega
  · simp only [collSuffix, hi, hj, if_false] at h
    have := natToDec_inj (i - 25) (j - 25) h
    omega

theorem collCand_inj (target : List Char) (i j : Nat)
    (h : collCand target i = collCand target j) : i = j := by
  simp only [collCand] at h
  have h1 := List.append_cancel_left h
  simp only [List.cons.injEq, true_and] at h1
  have hlen : (collSuffix i).length = (collSuffix j).length := by
    have := congrArg List.length h1
    simp only [List.length_append] at this
    omega
  exact collSuffix_inj i j (List.append_inj h1 hlen).1

theorem range_map_le_of_mem (ex : List (List Char)) (f : Nat → List Char) (N : Nat)
    (hf : ∀ i j, f i = f j → i = j) (h : ∀ j < N, f j ∈ ex) : N ≤ ex.length := by
  have hsub : (List.range N).map f ⊆ ex := by
    intro x hx
    rcases List.mem_map.mp hx with ⟨n, hn, rfl⟩
    exact h n (List.mem_range.mp hn)
  have hnd : ((List.range N).map f).Nodup :=
    (List.nodup_range N).map (fun a b hab => hf a b hab)
  have := (hnd.subperm hsub).length_le
  simpa using this

theorem exists_unused (ex : List (List Char)) (f : Nat → List Char)
    (hf : ∀ i j, f i = f j → i = j) : ∃ n, n ≤ ex.length ∧ f n ∉ ex := by
  by_contra hcon
  push_neg at hcon
  have : ex.length + 1 ≤ ex.length :=
    range_map_le_of_mem ex f (ex.length + 1) hf
      (fun j hj => hcon j (Nat.lt_succ_iff.mp hj))
  omega

theorem findFreeSuffix_not_mem (ex : List (List Char)) (cand : Nat → List Char) :
    ∀ fuel i, (∃ n, n < fuel ∧ cand (i + n) ∉ ex) →
      findFreeSuffix ex cand fuel i ∉ ex := by
  intro fuel
  induction fuel with
  | zero => rintro i ⟨n, hn, -⟩; omega
  | succ f ih =>
    rintro i ⟨n, hn, hfree⟩
    by_cases hmem : cand i ∈ ex
    · rw [show findFreeSuffix ex cand (f + 1) i = findFreeSuffix ex cand f (i + 1) by
        simp [findFreeSuffix, hmem]]
      apply ih (i + 1)
      cases n with
      | zero => exact absurd hmem (by simpa using hfree)
      | succ m =>
        refine ⟨m, by omega, ?_⟩
        have : i + 1 + m = i + (m + 1) := by omega
        rw [this]; exact hfree
    · rw [show findFreeSuffix ex cand (f + 1) i = cand i by simp [findFreeSuffix, hmem]]
      exact hmem

theorem findFreeSuffix_first (ex : List (List Char)) (cand : Nat → List Char) :
    ∀ N fuel i, (∀ j < N, cand (i + j) ∈ ex) → cand (i + N) ∉ ex → N < fuel →
      findFreeSuffix ex cand fuel i = cand (i + N) := by
  intro N
  induction N with
  | zero =>
    intro fuel i hall hfree hlt
    cases fuel with
    | zero => omega
    | succ f =>
      have : cand i ∉ ex := by simpa using hfree
      simp [findFreeSuffix, this]
  | succ M ih =>
    intro fuel i hall hfree hlt
    cases fuel with
    | zero => omega
    | succ f =>
      have hmem0 : cand i ∈ ex := by
        have := hall 0 (Nat.succ_pos M)
        simpa using this
      rw [show findFreeSuffix ex cand (f + 1) i = findFreeSuffix ex cand f (i + 1) by
        simp [findFreeSuffix, hmem0]]
      have hstep := ih f (i + 1)
        (fun j hj => by
          have := hall (j + 1) (by omega)
          rwa [show i + (j + 1) = i + 1 + j by omega] at this)
        (by rwa [show i + 1 + M = i + (M + 1) by omega])
        (by omega)
      rw [hstep, show i + 1 + M = i + (M + 1) by omega]

/-- Claim C6: `handle_collision` returns a path that is not in the set of
existing paths; it returns the target itself when the target does not exist;
and when the target and the first `N` suffixed variants all exist while the
`(N+1)`-th variant (index `N` in the sequence `-a, …, -z, -1, -2, …`) does
not, it returns exactly that variant. -/
theorem handleCollision_spec (ex : List (List Char)) (target : List Char) :
    handleCollision ex target ∉ ex ∧
    (target ∉ ex → handleCollision ex target = target) ∧
    (∀ N, target ∈ ex → (∀ j < N, collCand target j ∈ ex) →
      collCand target N ∉ ex → handleCollision ex target = collCand target N) := by
  refine ⟨?_, ?_, ?_⟩
  · by_cases htar : target ∈ ex
    · rw [show handleCollision ex target =
          findFreeSuffix ex (collCand target) (ex.length + 1) 0 by
        simp [handleCollision, htar]]
      rcases exists_unused ex (collCand target) (collCand_inj target) with ⟨n, hn, hfree⟩
      exact findFreeSuffix_not_mem ex (collCand target) (ex.length + 1) 0
        ⟨n, by omega, by simpa using hfree⟩
    · rw [show handleCollision ex target = target by simp [handleCollision, htar]]
      exact htar
  · intro htar
    simp [handleCollision, htar]
  · intro N htar hall hfree
    rw [show handleCollision ex target =
        findFreeSuffix ex (collCand target) (ex.length + 1) 0 by
      simp [handleCollision, htar]]
    have hN : N ≤ ex.length :=
      range_map_le_of_mem ex (collCand target) N (collCand_inj target) hall
    have := findFreeSuffix_first ex (collCand target) N (ex.length + 1) 0
      (fun j hj => by simpa using hall j hj) (by simpa using hfree) (by omega)
    simpa using this

/-- Witness for C6: with the target and its `-a` variant both existing, the
`-b` variant (index 1) is returned. -/
theorem handleCollision_spec_witness :
    handleCollision [("f.txt").toList, ("f-a.txt").toList] (("f.txt").toList) =
      collCand (("f.txt").toList) 1 :=
  (handleCollision_spec [("f.txt").toList, ("f-a.txt").toList] (("f.txt").toList)).2.2 1
    (by decide) (by decide) (by decide)

/-- The polling loop of `stabilize_file` (ingest.py:69-97), in a discrete
time model where each loop iteration takes exactly one `poll_interval`
(0.5s) sleep, so the `time.time() - start_time < timeout` guard allows
`timeout / poll_interval = 60` polls.  The stream of observed
`os.path.getsize` values is `sizes` (the head is the next observation; the
stream is shifted at each step); `last` and `checks` are the loop state
`last_size` and `stable_checks`.  The result pairs the returned boolean with
the number of polls performed; the fuel-exhausted arm is the `return True`
after the `while` loop (timeout treated as success). -/
def stabAux (sizes : Nat → Nat) : Nat → Int → Nat → Bool × Nat
  | 0, _, _ => (true, 0)
  | fuel + 1, last, checks =>
    if (sizes 0 : Int) = last then
      (if 3 ≤ checks + 1 then (true, 1)
       else
         let r := stabAux (fun i => sizes (i + 1)) fuel ((sizes 0 : Nat) : Int) (checks + 1)
         (r.1, r.2 + 1))
    else
      let r := stabAux (fun i => sizes (i + 1)) fuel ((sizes 0 : Nat) : Int) 0
      (r.1, r.2 + 1)

/-- Models `stabilize_file(filepath)` at its default arguments
(`poll_interval=0.5`, `stable_count=3`, `timeout=30`): `False` immediately
when the file does not exist, otherwise the polling loop starting from
`last_size = -1`, `stable_checks = 0`. -/
def stabilizeFile (fexists : Bool) (sizes : Nat → Nat) : Bool × Nat :=
  if fexists then stabAux sizes 60 (-1) 0 else (false, 0)

/-- The value of `stable_checks` after poll `j`, had the loop not returned:
poll 0 compares against `last` with credit `c`, later polls compare
consecutive observations. -/
def creditRun (sizes : Nat → Nat) (last : Int) (c : Nat) : Nat → Nat
  | 0 => if (sizes 0 : Int) = last then c + 1 else 0
  | j + 1 => if sizes (j + 1) = sizes j then creditRun sizes last c j + 1 else 0

theorem creditRun_shift (sizes : Nat → Nat) (last : Int) (c c0 : Nat)
    (h0 : creditRun sizes last c 0 = c0) :
    ∀ j, creditRun (fun i => sizes (i + 1)) ((sizes 0 : Nat) : Int) c0 j =
      creditRun sizes last c (j + 1) := by
  intro j
  induction j with
  | zero =>
    simp only [creditRun, Nat.cast_inj]
    rw [← h0]
    rfl
  | succ m ih =>
    have lhs : creditRun (fun i => sizes (i + 1)) ((sizes 0 : Nat) : Int) c0 (m + 1) =
        if sizes (m + 2) = sizes (m + 1) then
          creditRun (fun i => sizes (i + 1)) ((sizes 0 : Nat) : Int) c0 m + 1
        else 0 := rfl
    have rhs : creditRun sizes last c (m + 1 + 1) =
        if sizes (m + 2) = sizes (m + 1) then creditRun sizes last c (m + 1) + 1
        else 0 := rfl
    rw [lhs, rhs, ih]

theorem stabAux_true (fuel : Nat) :
    ∀ (sizes : Nat → Nat) (last : Int) (c : Nat), (stabAux sizes fuel last c).1 = true := by
  induction fuel with
  | zero => intro sizes last c; rfl
  | succ f ih =>
    intro sizes last c
    simp only [stabAux]
    split
    · split
      · rfl
      · simp [ih]
    · simp [ih]

theorem stabAux_ret (fuel : Nat) :
    ∀ (sizes : Nat → Nat) (last : Int) (c : Nat) (K : Nat),
      c ≤ 2 →
      3 ≤ creditRun sizes last c K →
      (∀ j < K, creditRun sizes last c j < 3) →
      K < fuel →
      stabAux sizes fuel last c = (true, K + 1) := by
  induction fuel with
  | zero => intro _ _ _ K _ _ _ h; omega
  | succ f ih =>
    intro sizes last c K hc hK hmin hfuel
    by_cases heq : (sizes 0 : Int) = last
    · have h0 : creditRun sizes last c 0 = c + 1 := by simp [creditRun, heq]
      by_cases h3 : 3 ≤ c + 1
      · have hK0 : K = 0 := by
          by_contra hne
          have := hmin 0 (by omega)
          omega
        subst hK0
        simp [stabAux, heq, h3]
      · have hKpos : K ≠ 0 := by
          intro h
          subst h
          omega
        obtain ⟨K', rfl⟩ : ∃ K', K = K' + 1 := ⟨K - 1, by omega⟩
        have hrec := ih (fun i => sizes (i + 1)) ((sizes 0 : Nat) : Int) (c + 1) K'
          (by omega)
          (by rw [creditRun_shift sizes last c (c + 1) h0]; exact hK)
          (fun j hj => by
            rw [creditRun_shift sizes last c (c + 1) h0]
            exact hmin (j + 1) (by omega))
          (by omega)
        simp only [stabAux]
        rw [if_pos heq, if_neg h3]
        simp only [hrec]
    · have h0 : creditRun sizes last c 0 = 0 := by simp [creditRun, heq]
      have hKpos : K ≠ 0 := by
        intro h
        subst h
        omega
      obtain ⟨K', rfl⟩ : ∃ K', K = K' + 1 := ⟨K - 1, by omega⟩
      have hrec := ih (fun i => sizes (i + 1)) ((sizes 0 : Nat) : Int) 0 K'
        (by omega)
        (by rw [creditRun_shift sizes last c 0 h0]; exact hK)
        (fun j hj => by
          rw [creditRun_shift sizes last c 0 h0]
          exact hmin (j + 1) (by omega))
        (by omega)
      simp only [stabAux]
      rw [if_neg heq]
      simp only [hrec]

theorem stabAux_timeout (fuel : Nat) :
    ∀ (sizes : Nat → Nat) (last : Int) (c : Nat),
      (∀ j < fuel, creditRun sizes last c j < 3) →
      stabAux sizes fuel last c = (true, fuel) := by
  induction fuel with
  | zero => intro sizes last c _; rfl
  | succ f ih =>
    intro sizes last c hall
    by_cases heq : (sizes 0 : Int) = last
    · have h0 : creditRun sizes last c 0 = c + 1 := by simp [creditRun, heq]
      have h3 : ¬ 3 ≤ c + 1 := by
        have := hall 0 (by omega)
        omega
      have hrec := ih (fun i => sizes (i + 1)) ((sizes 0 : Nat) : Int) (c + 1)
        (fun j hj => by
          rw [creditRun_shift sizes last c (c + 1) h0]
          exact hall (j + 1) (by omega))
      simp only [stabAux]
      rw [if_pos heq, if_neg h3]
      simp only [hrec]
    · have h0 : creditRun sizes last c 0 = 0 := by simp [creditRun, heq]
      have hrec := ih (fun i => sizes (i + 1)) ((sizes 0 : Nat) : Int) 0
        (fun j hj => by
          rw [creditRun_shift sizes last c 0 h0]
          exact hall (j + 1) (by omega))
      simp only [stabAux]
      rw [if_neg heq]
      simp only [hrec]

theorem creditRun_start (sizes : Nat → Nat) : creditRun sizes (-1) 0 0 = 0 := by
  simp only [creditRun]
  rw [if_neg]
  intro h
  omega

theorem creditRun_succ_ge (sizes : Nat → Nat) (last : Int) (c : Nat) (j n : Nat)
    (h : n + 1 ≤ creditRun sizes last c (j + 1)) :
    sizes (j + 1) = sizes j ∧ n ≤ creditRun sizes last c j := by
  by_cases heq : sizes (j + 1) = sizes j
  · simp only [creditRun, heq, if_true] at h
    exact ⟨heq, by omega⟩
  · simp only [creditRun, heq, if_false] at h
    omega

theorem creditRun_ge_three (sizes : Nat → Nat) (j : Nat)
    (h : 3 ≤ creditRun sizes (-1) 0 j) :
    ∃ i, j = i + 3 ∧ sizes i = sizes (i + 1) ∧ sizes (i + 1) = sizes (i + 2) ∧
      sizes (i + 2) = sizes (i + 3) := by
  cases j with
  | zero => rw [creditRun_start] at h; omega
  | succ a =>
    rcases creditRun_succ_ge sizes (-1) 0 a 2 h with ⟨e1, h1⟩
    cases a with
    | zero => rw [creditRun_start] at h1; omega
    | succ b =>
      rcases creditRun_succ_ge sizes (-1) 0 b 1 h1 with ⟨e2, h2⟩
      cases b with
      | zero => rw [creditRun_start] at h2; omega
      | succ i =>
        rcases creditRun_succ_ge sizes (-1) 0 i 0 h2 with ⟨e3, -⟩
        exact ⟨i, rfl, e3.symm, e2.symm, e1.symm⟩

/-- Claim C8: for an existing file, `stabilize_file` (with its default
arguments, under the discrete time model of one 0.5s sleep per iteration)
always returns success; it returns right after the poll that completes three
consecutive unchanged size observations — if the first four equal
consecutive observations are at polls `K..K+3` (within the 60-poll window of
the 30s timeout) exactly `K + 4` polls happen — and when no such run occurs
in the window it returns success after the full 60 polls, i.e. at the
timeout. -/
theorem stabilize_file_spec (sizes : Nat → Nat) :
    (stabilizeFile true sizes).1 = true ∧
    (∀ K, sizes K = sizes (K + 1) ∧ sizes (K + 1) = sizes (K + 2) ∧
        sizes (K + 2) = sizes (K + 3) →
      (∀ j < K, ¬(sizes j = sizes (j + 1) ∧ sizes (j + 1) = sizes (j + 2) ∧
        sizes (j + 2) = sizes (j + 3))) →
      K + 3 < 60 →
      stabilizeFile true sizes = (true, K + 4)) ∧
    ((∀ K, K + 3 < 60 → ¬(sizes K = sizes (K + 1) ∧ sizes (K + 1) = sizes (K + 2) ∧
        sizes (K + 2) = sizes (K + 3))) →
      stabilizeFile true sizes = (true, 60)) := by
  refine ⟨?_, ?_, ?_⟩
  · simp only [stabilizeFile, if_true]
    exact stabAux_true 60 sizes (-1) 0
  · intro K htr hmin hlt
    simp only [stabilizeFile, if_true]
    have hK3 : 3 ≤ creditRun sizes (-1) 0 (K + 3) := by
      have s1 : creditRun sizes (-1) 0 (K + 1) ≥ 1 := by
        simp only [creditRun, htr.1.symm, if_true]
        omega
      have s2 : creditRun sizes (-1) 0 (K + 2) ≥ 2 := by
        show (if sizes (K + 2) = sizes (K + 1) then creditRun sizes (-1) 0 (K + 1) + 1
          else 0) ≥ 2
        rw [if_pos htr.2.1.symm]
        omega
      show 3 ≤ (if sizes (K + 3) = sizes (K + 2) then creditRun sizes (-1) 0 (K + 2) + 1
        else 0)
      rw [if_pos htr.2.2.symm]
      omega
    have hminc : ∀ j < K + 3, creditRun sizes (-1) 0 j < 3 := by
      intro j hj
      by_contra hge
      rcases creditRun_ge_three sizes j (by omega) with ⟨i, rfl, t1, t2, t3⟩
      exact hmin i (by omega) ⟨t1, t2, t3⟩
    have := stabAux_ret 60 sizes (-1) 0 (K + 3) (by omega) hK3 hminc (by omega)
    rw [this]
  · intro hno
    simp only [stabilizeFile, if_true]
    apply stabAux_timeout 60 sizes (-1) 0
    intro j hj
    by_contra hge
    rcases creditRun_ge_three sizes j (by omega) with ⟨i, rfl, t1, t2, t3⟩
    exact hno i (by omega) ⟨t1, t2, t3⟩

/-- Witness for C8: a constant-size file is declared stable after 4 polls
(three consecutive unchanged observations following the first). -/
theorem stabilize_file_spec_witness :
    stabilizeFile true (fun _ => 5) = (true, 4) :=
  (stabilize_file_spec (fun _ => 5)).2.1 0 ⟨rfl, rfl, rfl⟩ (by omega) (by omega)

/-- Models `str.lstrip()` (strip leading Python whitespace). -/
def lstripWs : List Char → List Char
  | [] => []
  | c :: cs => if isPySpace c then lstripWs cs else c :: cs

/-- Models `str.rstrip()` (strip trailing Python whitespace). -/
def rstripWs : List Char → List Char
  | [] => []
  | c :: cs =>
    match rstripWs cs with
    | [] => if isPySpace c then [] else [c]
    | r => c :: r

/-- Models `str.strip()` (strip Python whitespace from both ends). -/
def pyStrip (l : List Char) : List Char := rstripWs (lstripWs l)

/-- Models the two-argument `os.path.join(a, b)` of posixpath. -/
def pyJoin (a b : List Char) : List Char :=
  if b.head? = some '/' then b
  else if a = [] ∨ a.getLast? = some '/' then a ++ b
  else a ++ '/' :: b

/-- Models `os.path.abspath` to the extent the claims need it: an absolute
path is returned unchanged, a relative one is joined to the current working
directory.  (The dot-segment normalisation `normpath` performs is not
modelled; no claim depends on it.) -/
def pyAbspath (cwd p : List Char) : List Char :=
  if p.head? = some '/' then p else pyJoin cwd p

/-- A manifest row with the fixed 12 columns written by
`ensure_manifest` / `append_to_manifest` (ingest.py:204-262). -/
structure Row where
  project : List Char
  stage : List Char
  path : List Char
  ts : List Char
  originalName : List Char
  sizeBytes : Nat
  sha256 : List Char
  source : List Char
  notes : List Char
  action : List Char
  derivedFrom : List Char
  codeCommit : List Char
deriving DecidableEq

/-- The outcome of attempting to read the manifest in `check_duplicate`:
the file may be absent, `pd.read_csv` may raise (any exception is caught),
the frame may lack a `sha256` column, or the rows are available. -/
inductive ManifestRead where
  | absent
  | readError
  | missingShaColumn (rows : List Row)
  | table (rows : List Row)
deriving DecidableEq

/-- Models `check_duplicate(manifest_path, sha256)` (ingest.py:224-244):
`None` when the manifest is absent, unreadable or lacks the column,
otherwise the `path` of the first row whose `sha256` equals the hash. -/
def checkDuplicate (src : ManifestRead) (sha : List Char) : Option (List Char) :=
  match src with
  | .absent => none
  | .readError => none
  | .missingShaColumn _ => none
  | .table rows => (rows.find? (fun r => decide (r.sha256 = sha))).map Row.path

/-- The per-call environment of `ingest_file(filepath, project, subdir,
config, source, notes)`: everything the function observes besides the
manifest rows.  `fexists` is `os.path.exists(filepath)`, `absPath` is
`os.path.abspath(filepath)`, `toolingRepo` is the absolute directory of the
tool itself, `tsIso`/`tsName` are the `datetime.now()` renderings used for
the manifest row and the filename, `manifestReadable` tells whether the
manifest read in `check_duplicate` succeeds (with its `sha256` column), and
`occupied` is the set of destination paths that already exist for
`handle_collision`. -/
structure IngestInput where
  fexists : Bool
  cwd : List Char
  absPath : List Char
  toolingRepo : List Char
  sha256 : List Char
  sizeBytes : Nat
  originalName : List Char
  tsIso : List Char
  tsName : List Char
  project : List Char
  subdir : List Char
  source : List Char
  notes : List Char
  manifestReadable : Bool
  occupied : List (List Char)
deriving DecidableEq

/-- Which exit path `ingest_file` took; `ingested` is the only one that
moves the file on disk (`shutil.move`). -/
inductive IngestOutcome where
  | notFound
  | selfIngest
  | duplicate (existing : List Char)
  | ingested (dest : List Char)
deriving DecidableEq

/-- Whether the outcome moved the source file away from its original path. -/
def movesFile : IngestOutcome → Bool
  | .ingested _ => true
  | _ => false

/-- The `duplicate_skipped` row written by `ingest_file` when the hash is
already present: note the free-text `notes` field
`f"Duplicate of {existing}. {notes}".strip()`. -/
def dupRow (inp : IngestInput) (existing : List Char) : Row :=
  { project := inp.project
    stage := ("raw").toList
    path := inp.absPath
    ts := inp.tsIso
    originalName := inp.originalName
    sizeBytes := inp.sizeBytes
    sha256 := inp.sha256
    source := inp.source
    notes := pyStrip (("Duplicate of ").toList ++ existing ++ ((". ").toList) ++ inp.notes)
    action := ("duplicate_skipped").toList
    derivedFrom := []
    codeCommit := [] }

/-- The `ingested` row written after a successful move, recording the
absolute destination path. -/
def ingRow (inp : IngestInput) (dest : List Char) : Row :=
  { project := inp.project
    stage := ("raw").toList
    path := pyAbspath inp.cwd dest
    ts := inp.tsIso
    originalName := inp.originalName
    sizeBytes := inp.sizeBytes
    sha256 := inp.sha256
    source := inp.source
    notes := inp.notes
    action := ("ingested").toList
    derivedFrom := []
    codeCommit := [] }

/-- The configuration as `ingest_file` consumes it: `projects_base` and the
naming section. -/
structure Config where
  projectsBase : List Char
  naming : NamingConfig
deriving DecidableEq

/-- Models `ingest_file` (ingest.py:357-458) as a function from the
environment and the current manifest rows to the returned boolean, the new
manifest rows and the taken exit path.  The branch order follows the source:
missing file, the `abs_filepath.startswith(tooling_repo)` self-ingestion
guard, the duplicate check (`if existing:` — the value returned for a found
row is never a falsy string, since recorded paths are non-empty and pandas
parses an empty cell as the truthy `NaN`, so the test is modelled as
presence), then timestamped naming, collision handling, move and manifest
append.  Stabilization only prints and never stops the ingest, so it does
not appear. -/
def ingestFile (fold : List Char → List Char) (cfg : Config) (inp : IngestInput)
    (m : List Row) : Bool × List Row × IngestOutcome :=
  if inp.fexists = false then (false, m, .notFound)
  else if inp.toolingRepo.isPrefixOf inp.absPath then (false, m, .selfIngest)
  else
    let src := if inp.manifestReadable then ManifestRead.table m else ManifestRead.readError
    match checkDuplicate src inp.sha256 with
    | some existing => (false, m ++ [dupRow inp existing], .duplicate existing)
    | none =>
      let newName := genTimestampedFilename fold inp.originalName cfg.naming inp.tsName
      let destDir := pyJoin (pyJoin cfg.projectsBase inp.project) inp.subdir
      let destPath := handleCollision inp.occupied (pyJoin destDir newName)
      (true, m ++ [ingRow inp destPath], .ingested destPath)

/-- One manifest transition of `ingest_file`: the updated rows. -/
def ingestStep (fold : List Char → List Char) (cfg : Config) (m : List Row)
    (inp : IngestInput) : List Row :=
  (ingestFile fold cfg inp m).2.1

/-- The manifest produced from an initially absent manifest (no rows) by a
sequence of `ingest_file` calls. -/
def runIngest (fold : List Char → List Char) (cfg : Config)
    (evs : List IngestInput) : List Row :=
  evs.foldl (ingestStep fold cfg) []

/-- The sha256 column is unique among rows whose action is `ingested`. -/
def shaUniqueIngested (m : List Row) : Prop :=
  (m.filter (fun r => decide (r.action = ("ingested").toList))).Pairwise
    (fun a b => a.sha256 ≠ b.sha256)

/-- The accounting loop of `cmd_add` (ingest.py:494-537): fold the files
through `ingest_file`, threading the manifest, counting `success_count` for
a `True` return and `skip_count` for a `False` return. -/
def cmdAddCounts (fold : List Char → List Char) (cfg : Config)
    (inps : List IngestInput) (m0 : List Row) : Nat × Nat × List Row :=
  inps.foldl
    (fun acc inp =>
      let r := ingestFile fold cfg inp acc.2.2
      if r.1 then (acc.1 + 1, acc.2.1, r.2.1) else (acc.1, acc.2.1 + 1, r.2.1))
    (0, 0, m0)

theorem ingestFile_notFound (fold : List Char → List Char) (cfg : Config)
    (inp : IngestInput) (m : List Row) (h : inp.fexists = false) :
    ingestFile fold cfg inp m = (false, m, .notFound) := by
  simp [ingestFile, h]

theorem ingestFile_selfGuard (fold : List Char → List Char) (cfg : Config)
    (inp : IngestInput) (m : List Row) (h1 : inp.fexists = true)
    (h2 : inp.toolingRepo.isPrefixOf inp.absPath = true) :
    ingestFile fold cfg inp m = (false, m, .selfIngest) := by
  simp [ingestFile, h1, h2]

theorem ingestFile_duplicate (fold : List Char → List Char) (cfg : Config)
    (inp : IngestInput) (m : List Row) (r0 : Row) (h1 : inp.fexists = true)
    (h2 : inp.toolingRepo.isPrefixOf inp.absPath = false)
    (h3 : inp.manifestReadable = true)
    (h4 : m.find? (fun r => decide (r.sha256 = inp.sha256)) = some r0) :
    ingestFile fold cfg inp m = (false, m ++ [dupRow inp r0.path], .duplicate r0.path) := by
  simp [ingestFile, h1, h2, h3, checkDuplicate, h4]

theorem ingestFile_new (fold : List Char → List Char) (cfg : Config)
    (inp : IngestInput) (m : List Row) (h1 : inp.fexists = true)
    (h2 : inp.toolingRepo.isPrefixOf inp.absPath = false)
    (h3 : inp.manifestReadable = true)
    (h4 : m.find? (fun r => decide (r.sha256 = inp.sha256)) = none) :
    ingestFile fold cfg inp m =
      (true,
       m ++ [ingRow inp (handleCollision inp.occupied
         (pyJoin (pyJoin (pyJoin cfg.projectsBase inp.project) inp.subdir)
           (genTimestampedFilename fold inp.originalName cfg.naming inp.tsName)))],
       .ingested (handleCollision inp.occupied
         (pyJoin (pyJoin (pyJoin cfg.projectsBase inp.project) inp.subdir)
           (genTimestampedFilename fold inp.originalName cfg.naming inp.tsName)))) := by
  simp [ingestFile, h1, h2, h3, checkDuplicate, h4]

/-- Claim C3: `check_duplicate` fails open — it returns `None` when the
manifest file does not exist, when reading it raises (after logging a
warning), when the `sha256` column is missing, or when no row matches; and
it returns the `path` of the first matching row otherwise. -/
theorem check_duplicate_spec (sha : List Char) (rows : List Row) :
    checkDuplicate .absent sha = none ∧
    checkDuplicate .readError sha = none ∧
    checkDuplicate (.missingShaColumn rows) sha = none ∧
    ((∀ r ∈ rows, r.sha256 ≠ sha) → checkDuplicate (.table rows) sha = none) ∧
    (∀ i, ∀ hi : i < rows.length,
      (∀ r ∈ rows.take i, r.sha256 ≠ sha) → rows[i].sha256 = sha →
      checkDuplicate (.table rows) sha = some rows[i].path) := by
  refine ⟨rfl, rfl, rfl, ?_, ?_⟩
  · intro hnone
    simp only [checkDuplicate]
    rw [show List.find? (fun r => decide (r.sha256 = sha)) rows = none from
      List.find?_eq_none.mpr (fun r hr => by simp [hnone r hr])]
    rfl
  · intro i hi hpre hmatch
    induction rows generalizing i with
    | nil => simp at hi
    | cons r rs ih =>
      cases i with
      | zero =>
        simp only [List.getElem_cons_zero] at hmatch ⊢
        simp [checkDuplicate, List.find?_cons, hmatch]
      | succ j =>
        have hr : r.sha256 ≠ sha := by
          apply hpre
          rw [List.take_succ_cons]
          exact List.mem_cons_self _ _
        simp only [List.getElem_cons_succ] at hmatch ⊢
        have hstep := ih j (by simpa using hi)
          (fun r' hr' => hpre r' (by rw [List.take_succ_cons]; exact List.mem_cons_of_mem _ hr'))
          hmatch
        simp only [checkDuplicate] at hstep ⊢
        rwa [List.find?_cons_of_neg _ (by simp [hr])]

/-- Sample rows used by concrete witnesses. -/
def sampleRow (sha path action : List Char) : Row :=
  { project := ("proj").toList
    stage := ("raw").toList
    path := path
    ts := []
    originalName := []
    sizeBytes := 0
    sha256 := sha
    source := []
    notes := []
    action := action
    derivedFrom := []
    codeCommit := [] }

/-- Witness for C3: with two rows the second one's hash resolves to the
second one's path, and a missing hash resolves to `none`. -/
theorem check_duplicate_spec_witness :
    checkDuplicate (.table [sampleRow (("h1").toList) (("p1").toList) (("ingested").toList),
        sampleRow (("h2").toList) (("p2").toList) (("ingested").toList)])
      (("h2").toList) =
      some ([sampleRow (("h1").toList) (("p1").toList) (("ingested").toList),
        sampleRow (("h2").toList) (("p2").toList) (("ingested").toList)][1].path) :=
  (check_duplicate_spec (("h2").toList)
    [sampleRow (("h1").toList) (("p1").toList) (("ingested").toList),
     sampleRow (("h2").toList) (("p2").toList) (("ingested").toList)]).2.2.2.2 1
    (by decide) (by decide) (by decide)

theorem shaUniqueIngested_nil : shaUniqueIngested [] := by
  simp [shaUniqueIngested]

theorem ingestStep_preserves (fold : List Char → List Char) (cfg : Config)
    (m : List Row) (inp : IngestInput) (hread : inp.manifestReadable = true)
    (h : shaUniqueIngested m) : shaUniqueIngested ((ingestFile fold cfg inp m).2.1) := by
  by_cases hex : inp.fexists = false
  · rw [ingestFile_notFound fold cfg inp m hex]
    exact h
  · rw [Bool.not_eq_false] at hex
    by_cases hg : inp.toolingRepo.isPrefixOf inp.absPath = true
    · rw [ingestFile_selfGuard fold cfg inp m hex hg]
      exact h
    · rw [Bool.not_eq_true] at hg
      cases hdup : m.find? (fun r => decide (r.sha256 = inp.sha256)) with
      | some r0 =>
        rw [ingestFile_duplicate fold cfg inp m r0 hex hg hread hdup]
        simp only [shaUniqueIngested, List.filter_append]
        rw [show List.filter (fun r => decide (r.action = ("ingested").toList))
            [dupRow inp r0.path] = [] by rfl]
        simpa [shaUniqueIngested] using h
      | none =>
        rw [ingestFile_new fold cfg inp m hex hg hread hdup]
        have hno : ∀ r ∈ m, r.sha256 ≠ inp.sha256 := by
          intro r hr
          have := List.find?_eq_none.mp hdup r hr
          simpa using this
        simp only [shaUniqueIngested, List.filter_append]
        rw [show List.filter (fun r => decide (r.action = ("ingested").toList))
            [ingRow inp (handleCollision inp.occupied
              (pyJoin (pyJoin (pyJoin cfg.projectsBase inp.project) inp.subdir)
                (genTimestampedFilename fold inp.originalName cfg.naming inp.tsName)))] =
            [ingRow inp (handleCollision inp.occupied
              (pyJoin (pyJoin (pyJoin cfg.projectsBase inp.project) inp.subdir)
                (genTimestampedFilename fold inp.originalName cfg.naming inp.tsName)))]
          by rfl]
        rw [List.pairwise_append]
        refine ⟨h, List.pairwise_singleton _ _, ?_⟩
        intro a ha b hb
        simp only [List.mem_singleton] at hb
        subst hb
        show a.sha256 ≠ inp.sha256
        exact hno a (List.mem_of_mem_filter ha)

theorem runIngest_aux (fold : List Char → List Char) (cfg : Config)
    (evs : List IngestInput) :
    ∀ m, (∀ inp ∈ evs, inp.manifestReadable = true) → shaUniqueIngested m →
      shaUniqueIngested (evs.foldl (ingestStep fold cfg) m) := by
  induction evs with
  | nil => intro m _ h; exact h
  | cons e es ih =>
    intro m hread h
    rw [List.foldl_cons]
    exact ih _ (fun inp hinp => hread inp (List.mem_cons_of_mem _ hinp))
      (ingestStep_preserves fold cfg m e (hread e (List.mem_cons_self _ _)) h)

/-- Claim C1: a manifest produced from empty by any sequence of
`ingest_file` calls, with the manifest readable at each duplicate check, has
a unique `sha256` among its `ingested` rows: a second `ingested` row with an
already-recorded hash is never appended. -/
theorem ingest_manifest_sha256_unique (fold : List Char → List Char) (cfg : Config)
    (evs : List IngestInput) (hread : ∀ inp ∈ evs, inp.manifestReadable = true) :
    shaUniqueIngested (runIngest fold cfg evs) :=
  runIngest_aux fold cfg evs [] hread shaUniqueIngested_nil

/-- A concrete configuration for witnesses. -/
def cfg0 : Config := { projectsBase := ("/projects").toList, naming := defaultNaming }

/-- A concrete, well-formed ingest environment for witnesses: an existing
file outside the tooling repo with a readable manifest. -/
def baseInput : IngestInput :=
  { fexists := true
    cwd := ("/home/user").toList
    absPath := ("/data/in.csv").toList
    toolingRepo := ("/home/user/research-pipeline/tooling").toList
    sha256 := ("abc123").toList
    sizeBytes := 10
    originalName := ("in.csv").toList
    tsIso := ("2024-01-02T03:04:05").toList
    tsName := ("2024-01-02T030405").toList
    project := ("proj").toList
    subdir := ("data/raw").toList
    source := ("manual").toList
    notes := []
    manifestReadable := true
    occupied := [] }

/-- The same environment with the source file absent. -/
def inpMissing : IngestInput := { baseInput with fexists := false }

/-- The same environment with a source file inside the tooling repo. -/
def inpSelf : IngestInput :=
  { baseInput with
      absPath := ("/home/user/research-pipeline/tooling/config.yaml").toList }

/-- A file in a sibling directory whose name extends the tooling repo's name
as a string: outside the tool's installation directory, yet caught by the
`startswith` guard. -/
def inpSibling : IngestInput :=
  { baseInput with
      absPath := ("/home/user/research-pipeline/tooling-archive/data.csv").toList }

/-- A previously ingested row carrying the same hash as `baseInput`. -/
def oldRow : Row :=
  sampleRow (("abc123").toList) (("/projects/proj/data/raw/old.csv").toList)
    (("ingested").toList)

/-- Witness for C1 at a concrete event sequence (the same file twice: the
second call records a duplicate, not a second `ingested` row). -/
theorem ingest_manifest_sha256_unique_witness :
    shaUniqueIngested (runIngest asciiOnly cfg0 [baseInput, baseInput]) :=
  ingest_manifest_sha256_unique asciiOnly cfg0 [baseInput, baseInput] (by decide)

theorem rstripWs_cons_ne_nil (c : Char) (cs : List Char) (h : rstripWs cs ≠ []) :
    rstripWs (c :: cs) = c :: rstripWs cs := by
  cases hr : rstripWs cs with
  | nil => exact absurd hr h
  | cons x xs => simp [rstripWs, hr]

theorem rstripWs_append_keep (x y : List Char) (d : Char) (hd : isPySpace d = false) :
    rstripWs (x ++ d :: y) = x ++ d :: rstripWs y := by
  induction x with
  | nil =>
    simp only [List.nil_append]
    cases hr : rstripWs y with
    | nil => simp [rstripWs, hr, hd]
    | cons a as => simp [rstripWs, hr]
  | cons a x' ih =>
    have hne : rstripWs (x' ++ d :: y) ≠ [] := by
      rw [ih]
      simp
    rw [List.cons_append, rstripWs_cons_ne_nil a _ hne, ih, List.cons_append]

/-- Claim C2: when the file exists, passes the self-ingestion guard, and its
hash is already recorded in the readable manifest, `ingest_file` appends
exactly one `duplicate_skipped` row whose notes quote the first matching
row's recorded path, returns `False`, and does not move the file. -/
theorem ingest_duplicate_spec (fold : List Char → List Char) (cfg : Config)
    (inp : IngestInput) (m : List Row) (r0 : Row)
    (hex : inp.fexists = true)
    (hguard : inp.toolingRepo.isPrefixOf inp.absPath = false)
    (hread : inp.manifestReadable = true)
    (hfind : m.find? (fun r => decide (r.sha256 = inp.sha256)) = some r0) :
    ingestFile fold cfg inp m = (false, m ++ [dupRow inp r0.path], .duplicate r0.path) ∧
    (dupRow inp r0.path).action = ("duplicate_skipped").toList ∧
    (∃ a b, (dupRow inp r0.path).notes = a ++ (r0.path ++ b)) ∧
    movesFile (ingestFile fold cfg inp m).2.2 = false := by
  have hmain := ingestFile_duplicate fold cfg inp m r0 hex hguard hread hfind
  refine ⟨hmain, rfl, ?_, ?_⟩
  · refine ⟨("Duplicate of ").toList, '.' :: rstripWs (' ' :: inp.notes), ?_⟩
    show pyStrip (("Duplicate of ").toList ++ r0.path ++ ((". ").toList) ++ inp.notes) = _
    have hS : ((". ").toList) ++ inp.notes = '.' :: ' ' :: inp.notes := rfl
    have hT : ("Duplicate of ").toList ++ r0.path ++ ((". ").toList) ++ inp.notes =
        (("Duplicate of ").toList ++ r0.path) ++ ('.' :: ' ' :: inp.notes) := by
      rw [List.append_assoc (("Duplicate of ").toList ++ r0.path), hS]
    rw [hT, pyStrip]
    rw [show lstripWs ((("Duplicate of ").toList ++ r0.path) ++ ('.' :: ' ' :: inp.notes)) =
        (("Duplicate of ").toList ++ r0.path) ++ ('.' :: ' ' :: inp.notes) from rfl]
    rw [rstripWs_append_keep _ _ '.' (by decide)]
    rw [List.append_assoc]
  · rw [hmain]
    rfl

/-- Witness for C2: re-ingesting the content of `oldRow` is recorded as a
duplicate of `oldRow`'s recorded path and the file is not moved. -/
theorem ingest_duplicate_spec_witness :
    ingestFile asciiOnly cfg0 baseInput [oldRow] =
      (false, [oldRow] ++ [dupRow baseInput oldRow.path], .duplicate oldRow.path) ∧
    (dupRow baseInput oldRow.path).action = ("duplicate_skipped").toList ∧
    (∃ a b, (dupRow baseInput oldRow.path).notes = a ++ (oldRow.path ++ b)) ∧
    movesFile (ingestFile asciiOnly cfg0 baseInput [oldRow]).2.2 = false :=
  ingest_duplicate_spec asciiOnly cfg0 baseInput [oldRow] oldRow rfl (by decide) rfl
    (by decide)

theorem ingestFile_unreadable (fold : List Char → List Char) (cfg : Config)
    (inp : IngestInput) (m : List Row) (h1 : inp.fexists = true)
    (h2 : inp.toolingRepo.isPrefixOf inp.absPath = false)
    (h3 : inp.manifestReadable = false) :
    (ingestFile fold cfg inp m).2.2 =
      .ingested (handleCollision inp.occupied
        (pyJoin (pyJoin (pyJoin cfg.projectsBase inp.project) inp.subdir)
          (genTimestampedFilename fold inp.originalName cfg.naming inp.tsName))) := by
  simp [ingestFile, h1, h2, h3, checkDuplicate]

theorem cmdAdd_partition (fold : List Char → List Char) (cfg : Config)
    (inps : List IngestInput) :
    ∀ acc : Nat × Nat × List Row,
      ((inps.foldl
        (fun acc inp =>
          let r := ingestFile fold cfg inp acc.2.2
          if r.1 then (acc.1 + 1, acc.2.1, r.2.1) else (acc.1, acc.2.1 + 1, r.2.1))
        acc).1 +
      (inps.foldl
        (fun acc inp =>
          let r := ingestFile fold cfg inp acc.2.2
          if r.1 then (acc.1 + 1, acc.2.1, r.2.1) else (acc.1, acc.2.1 + 1, r.2.1))
        acc).2.1) = acc.1 + acc.2.1 + inps.length := by
  induction inps with
  | nil => intro acc; simp
  | cons i is ih =>
    intro acc
    rw [List.foldl_cons]
    rw [ih]
    by_cases h : (ingestFile fold cfg i acc.2.2).1 <;> simp [h] <;> omega

/-- Claim C9: `ingest_file` returns the same value `False` for a missing
file, for a self-ingestion-guard rejection, and for a duplicate, so the
return value cannot separate per-file errors from duplicate skips; the
`skip_count` that `cmd_add` reports counts exactly the `False` returns, and
in a concrete run over one missing file, one guarded file and one duplicate
it reports 0 ingested and 3 skipped. -/
theorem ingest_false_collapse (fold : List Char → List Char) (cfg : Config) :
    (∀ (inp : IngestInput) (m : List Row), inp.fexists = false →
      ingestFile fold cfg inp m = (false, m, .notFound)) ∧
    (∀ (inp : IngestInput) (m : List Row), inp.fexists = true →
      inp.toolingRepo.isPrefixOf inp.absPath = true →
      ingestFile fold cfg inp m = (false, m, .selfIngest)) ∧
    (∀ (inp : IngestInput) (m : List Row) (r0 : Row), inp.fexists = true →
      inp.toolingRepo.isPrefixOf inp.absPath = false → inp.manifestReadable = true →
      m.find? (fun r => decide (r.sha256 = inp.sha256)) = some r0 →
      (ingestFile fold cfg inp m).1 = false) ∧
    (∀ (inps : List IngestInput) (m0 : List Row),
      (cmdAddCounts fold cfg inps m0).1 + (cmdAddCounts fold cfg inps m0).2.1 =
        inps.length) ∧
    (cmdAddCounts fold cfg [inpMissing, inpSelf, baseInput] [oldRow]).1 = 0 ∧
    (cmdAddCounts fold cfg [inpMissing, inpSelf, baseInput] [oldRow]).2.1 = 3 := by
  have s1 : ingestFile fold cfg inpMissing [oldRow] = (false, [oldRow], .notFound) :=
    ingestFile_notFound fold cfg inpMissing [oldRow] rfl
  have s2 : ingestFile fold cfg inpSelf [oldRow] = (false, [oldRow], .selfIngest) :=
    ingestFile_selfGuard fold cfg inpSelf [oldRow] rfl (by decide)
  have s3 : ingestFile fold cfg baseInput [oldRow] =
      (false, [oldRow] ++ [dupRow baseInput oldRow.path], .duplicate oldRow.path) :=
    ingestFile_duplicate fold cfg baseInput [oldRow] oldRow rfl (by decide) rfl (by decide)
  have hrun : cmdAddCounts fold cfg [inpMissing, inpSelf, baseInput] [oldRow] =
      (0, 3, [oldRow] ++ [dupRow baseInput oldRow.path]) := by
    simp [cmdAddCounts, s1, s2, s3]
  refine ⟨fun inp m h => ingestFile_notFound fold cfg inp m h,
    fun inp m h1 h2 => ingestFile_selfGuard fold cfg inp m h1 h2,
    fun inp m r0 h1 h2 h3 h4 => by
      rw [ingestFile_duplicate fold cfg inp m r0 h1 h2 h3 h4],
    fun inps m0 => by
      have := cmdAdd_partition fold cfg inps (0, 0, m0)
      simpa [cmdAddCounts] using this,
    by rw [hrun], by rw [hrun]⟩

/-- Witness for C9 at a concrete missing file. -/
theorem ingest_false_collapse_witness :
    ingestFile asciiOnly cfg0 inpMissing [] = (false, [], .notFound) :=
  (ingest_false_collapse asciiOnly cfg0).1 inpMissing [] rfl

/-- Claim C10: the self-ingestion guard is a plain string-prefix test on
absolute paths (`abs_filepath.startswith(tooling_repo)`), with no
directory-separator check: among existing files the guard fires exactly when
the absolute path extends the tooling directory string, and the concrete
sibling path `/home/user/research-pipeline/tooling-archive/data.csv` — which
lies outside the tooling directory `/home/user/research-pipeline/tooling` —
is refused with return value `False`. -/
theorem self_ingest_guard_startswith (fold : List Char → List Char) (cfg : Config)
    (m : List Row) :
    (∀ inp : IngestInput, inp.fexists = true →
      ((ingestFile fold cfg inp m).2.2 = .selfIngest ↔
        inp.toolingRepo.isPrefixOf inp.absPath = true)) ∧
    ingestFile fold cfg inpSibling m = (false, m, .selfIngest) ∧
    inpSibling.absPath ≠ inpSibling.toolingRepo ∧
    (inpSibling.toolingRepo ++ ['/']).isPrefixOf inpSibling.absPath = false := by
  refine ⟨?_, ingestFile_selfGuard fold cfg inpSibling m rfl (by decide),
    by decide, by decide⟩
  intro inp hex
  by_cases hg : inp.toolingRepo.isPrefixOf inp.absPath = true
  · rw [ingestFile_selfGuard fold cfg inp m hex hg]
    simp [hg]
  · rw [Bool.not_eq_true] at hg
    rw [hg]
    simp only [Bool.false_eq_true, iff_false]
    by_cases hre : inp.manifestReadable = true
    · cases hdup : m.find? (fun r => decide (r.sha256 = inp.sha256)) with
      | some r0 =>
        rw [ingestFile_duplicate fold cfg inp m r0 hex hg hre hdup]
        simp
      | none =>
        rw [ingestFile_new fold cfg inp m hex hg hre hdup]
        simp
    · rw [Bool.not_eq_true] at hre
      rw [ingestFile_unreadable fold cfg inp m hex hg hre]
      simp

/-- Witness for C10: the guard verdict for the sibling path agrees with the
string-prefix test. -/
theorem self_ingest_guard_startswith_witness :
    (ingestFile asciiOnly cfg0 inpSibling []).2.2 = .selfIngest ↔
      inpSibling.toolingRepo.isPrefixOf inpSibling.absPath = true :=
  (self_ingest_guard_startswith asciiOnly cfg0 []).1 inpSibling rfl

end IngestSpec
